import Mathlib

/-!
Verification of the segmented commit log from `internal/log` (log.go, index.go)
of go-microsrv-distib-log.

Shallow embedding conventions:
* Bytes are `Nat` values (< 256 whenever produced by the encoders); files and
  memory maps are `List Nat`.
* Go `uint64`/`uint32` arithmetic is `Nat` with explicit `% 2^64` / `% 2^32`
  at the operations where Go wraps; logical offsets (`nextOffset` counters,
  which only ever grow by 1 per append) are kept as unbounded `Nat`.
* Go slice expressions that can panic are modelled by `goSlice`, which returns
  `none` exactly when the Go expression would panic with a bounds error;
  indexing an empty slice (`segments[0]` on an empty list) is modelled with
  `Option`-returning accessors whose `none` is the Go panic.
* Fallible operations return `Option`/`Except`; `io.EOF` and the
  "offset out of range" error of `Log.Read` are distinct constructors.
-/

namespace DistribLog

/-- Go slice expression `b[lo:hi]`: `none` models the bounds-check panic
(`lo ≤ hi ≤ len` required, cap = len for the mapped regions modelled here). -/
def goSlice (b : List Nat) (lo hi : Nat) : Option (List Nat) :=
  if lo ≤ hi ∧ hi ≤ b.length then some ((b.drop lo).take (hi - lo)) else none

/-- Big-endian decode of the first 4 bytes (Go `binary.BigEndian.Uint32`,
which reads exactly `b[0] .. b[3]`; callers guarantee length ≥ 4). -/
def be32 (b : List Nat) : Nat :=
  b.getD 0 0 * 16777216 + b.getD 1 0 * 65536 + b.getD 2 0 * 256 + b.getD 3 0

/-- Big-endian decode of the first 8 bytes (Go `binary.BigEndian.Uint64`). -/
def be64 (b : List Nat) : Nat :=
  b.getD 0 0 * 72057594037927936 + b.getD 1 0 * 281474976710656 +
  b.getD 2 0 * 1099511627776 + b.getD 3 0 * 4294967296 +
  b.getD 4 0 * 16777216 + b.getD 5 0 * 65536 + b.getD 6 0 * 256 + b.getD 7 0

/-- Big-endian encode of a `uint32` (Go `binary.BigEndian.PutUint32`). -/
def u32be (n : Nat) : List Nat :=
  [n / 16777216 % 256, n / 65536 % 256, n / 256 % 256, n % 256]

/-- Big-endian encode of a `uint64` (Go `binary.BigEndian.PutUint64`). -/
def u64be (n : Nat) : List Nat :=
  [n / 72057594037927936 % 256, n / 281474976710656 % 256,
   n / 1099511627776 % 256, n / 4294967296 % 256,
   n / 16777216 % 256, n / 65536 % 256, n / 256 % 256, n % 256]

/-- Go `uint64` subtraction `a - b` (wraps modulo `2^64`). -/
def u64sub (a b : Nat) : Nat := (2 ^ 64 + a % 2 ^ 64 - b % 2 ^ 64) % 2 ^ 64

/-- Go conversion to `uint32` (keeps the low 32 bits). -/
def u32cast (a : Nat) : Nat := a % 2 ^ 32

/-- Go conversion `int64 → uint32` (keeps the low 32 bits of the two's
complement representation). -/
def int64ToU32 (n : Int) : Nat := (n % 2 ^ 32).toNat

/-- Go conversion `uint64 → int64` (reinterprets the bit pattern). -/
def toInt64 (n : Nat) : Int :=
  if n % 2 ^ 64 < 2 ^ 63 then ((n % 2 ^ 64 : Nat) : Int)
  else ((n % 2 ^ 64 : Nat) : Int) - 2 ^ 64

/-- Overwrite the bytes of `m` starting at position `i` with `bs`
(the mmap writes done by `index.Write`; callers guarantee
`i + bs.length ≤ m.length`). -/
def writeAt (m : List Nat) (i : Nat) (bs : List Nat) : List Nat :=
  m.take i ++ bs ++ m.drop (i + bs.length)

/-- Result of an index read: `eof` is `io.EOF`, `fault` is a slice
bounds-check panic, `ok out pos` is a successful `(relative offset, position)`
pair. -/
inductive ReadResult where
  | eof : ReadResult
  | fault : ReadResult
  | ok : Nat → Nat → ReadResult
deriving DecidableEq, Repr

/-- The entry index selected by `index.Read`'s prologue: `uint32` of the
argument, or — for `in == -1` — `uint32((size / entWidth) - 1)` computed in
`uint64` arithmetic (both `Read` implementations share these lines). -/
def indexOut (size : Nat) (inp : Int) : Nat :=
  if inp = -1 then u32cast (u64sub (size / 12) 1) else int64ToU32 inp

/-- `index.Read` from index.go (the lowercase `index` type is the one the
segment uses): translated line by line; `m` is the mmap contents, `size` the
high-water mark, `inp` the `int64` argument. The offset slice is
`i.mMap[pos : pos+offWidth]` (4 bytes). -/
def indexRead (m : List Nat) (size : Nat) (inp : Int) : ReadResult :=
  if size = 0 then .eof
  else if size < indexOut size inp * 12 + 12 then .eof
  else
    match goSlice m (indexOut size inp * 12) (indexOut size inp * 12 + 4),
          goSlice m (indexOut size inp * 12 + 4) (indexOut size inp * 12 + 12) with
    | some bOff, some bPos => .ok (be32 bOff) (be64 bPos)
    | _, _ => .fault

/-- `Index.Read` (the capitalised duplicate in the same package): identical
except that the offset is decoded from the 12-byte slice
`i.mMap[pos : pos+entWidth]`; Go's `Uint32` still reads only its first four
bytes. -/
def IndexReadCap (m : List Nat) (size : Nat) (inp : Int) : ReadResult :=
  if size = 0 then .eof
  else if size < indexOut size inp * 12 + 12 then .eof
  else
    match goSlice m (indexOut size inp * 12) (indexOut size inp * 12 + 12),
          goSlice m (indexOut size inp * 12 + 4) (indexOut size inp * 12 + 12) with
    | some bEnt, some bPos => .ok (be32 bEnt) (be64 bPos)
    | _, _ => .fault

/-- `index.Write` from index.go: fails with `io.EOF` when the pre-sized map
has no room, otherwise writes the 12-byte big-endian entry at offset `size`
and advances `size`.  Returns the new map and new size. -/
def indexWrite (m : List Nat) (size : Nat) (off pos : Nat) :
    Option (List Nat × Nat) :=
  if m.length < size + 12 then none
  else some (writeAt m size (u32be off ++ u64be pos), size + 12)

/-- The 12-byte entry at entry index `j` of an index map, decoded — the
spec's "entry at index `j`" (§4.2): `none` when the bytes are not mapped. -/
def entryAt (m : List Nat) (j : Nat) : Option (Nat × Nat) :=
  match goSlice m (j * 12) (j * 12 + 4), goSlice m (j * 12 + 4) (j * 12 + 12) with
  | some a, some b => some (be32 a, be64 b)
  | _, _ => none

/-- A record (`api.Record`): opaque payload bytes plus the offset field the
log assigns on append. -/
structure Rec where
  value : List Nat
  offset : Nat
deriving DecidableEq, Repr

/-- Segment-related configuration (`Config.Segment`). -/
structure Config where
  maxStoreBytes : Nat
  maxIndexBytes : Nat
  initialOffset : Nat
deriving DecidableEq, Repr

/-- `NewLog`'s defaulting of unset options (log.go lines 27–32):
`MaxStoreBytes` becomes 1024 and `MaxIndexBytes` becomes `entWidth * 3 = 36`
when zero; `InitialOffset` is taken as given (zero value 0). -/
def normalizeConfig (c : Config) : Config :=
  ⟨if c.maxStoreBytes = 0 then 1024 else c.maxStoreBytes,
   if c.maxIndexBytes = 0 then 36 else c.maxIndexBytes,
   c.initialOffset⟩

/-- Modelled from the spec: the external codec (§3, §6) — `marshal` and
`unmarshal` round-trip a record's payload and offset fields; the protobuf
implementation is not part of this repository.  Modelled as the offset in
eight big-endian bytes followed by the payload. -/
def marshalRec (r : Rec) : List Nat := u64be r.offset ++ r.value

/-- Modelled from the spec: inverse of `marshalRec` (external codec, §6). -/
def unmarshalRec (b : List Nat) : Rec := ⟨b.drop 8, be64 (b.take 8)⟩

/-- Modelled from the spec (§4.1; store.go is not in the repository):
`store.Append` writes `len(p)` as a big-endian u64 followed by `p` at the end
of the file; returns (new file, bytes written, position of the length
prefix). -/
def storeAppend (buf : List Nat) (p : List Nat) : List Nat × Nat × Nat :=
  (buf ++ u64be p.length ++ p, 8 + p.length, buf.length)

/-- Modelled from the spec (§4.1): `store.Read(pos)` reads the 8-byte length
prefix at `pos`, then that many payload bytes; `none` models the
short-read/out-of-range `IoError`. -/
def storeRead (buf : List Nat) (pos : Nat) : Option (List Nat) :=
  match goSlice buf pos (pos + 8) with
  | none => none
  | some lenB => goSlice buf (pos + 8) (pos + 8 + be64 lenB)

/-- A segment: base/next offsets plus its store file bytes and index state
(file handles are represented by the byte contents). -/
structure Segment where
  baseOffset : Nat
  nextOffset : Nat
  storeBuf : List Nat
  indexMMap : List Nat
  indexSize : Nat
deriving DecidableEq, Repr

/-- Modelled from the spec (§4.3; segment.go is not in the repository):
`newSegment` for a base offset with no files on disk: empty store, index
pre-sized to `maxIndexBytes` zero bytes with `size = 0`, and
`nextOffset = baseOffset`. -/
def newSegmentFresh (c : Config) (base : Nat) : Segment :=
  ⟨base, base, [], List.replicate c.maxIndexBytes 0, 0⟩

/-- `segment.IsMaxed` (spec I4, exercised by segment_test.go): store full or
no room for one more index entry. -/
def isMaxed (c : Config) (s : Segment) : Bool :=
  c.maxStoreBytes ≤ s.storeBuf.length || c.maxIndexBytes < s.indexSize + 12

/-- Modelled from the spec (§4.3): `segment.Append`: stamp the record with
`nextOffset`, marshal, append to the store, write
`(uint32(nextOffset − baseOffset), position)` to the index, bump
`nextOffset`.  On index `EOF` the store bytes were already written and the
error is returned with `nextOffset` unchanged. -/
def segAppend (s : Segment) (r : Rec) : Option Nat × Segment :=
  match storeAppend s.storeBuf (marshalRec { r with offset := s.nextOffset }) with
  | (buf2, _, pos) =>
    match indexWrite s.indexMMap s.indexSize
        (u32cast (u64sub s.nextOffset s.baseOffset)) pos with
    | none => (none, { s with storeBuf := buf2 })
    | some (m2, sz2) =>
      (some s.nextOffset,
       { s with storeBuf := buf2, indexMMap := m2, indexSize := sz2,
                nextOffset := s.nextOffset + 1 })

/-- Errors surfaced by log reads: `offsetOutOfRange` is `Log.Read`'s
"offset out of range: %d" error, `eofErr` is `io.EOF` from the index,
`ioErr` a store short read, `faultErr` a slice bounds fault. -/
inductive LogErr where
  | offsetOutOfRange : LogErr
  | eofErr : LogErr
  | ioErr : LogErr
  | faultErr : LogErr
deriving DecidableEq, Repr

/-- Modelled from the spec (§4.3): `segment.Read(off)`:
`index.Read(int64(off − baseOffset))` gives the store position, then
`store.Read` there and unmarshal. -/
def segRead (s : Segment) (off : Nat) : Except LogErr Rec :=
  match indexRead s.indexMMap s.indexSize (toInt64 (u64sub off s.baseOffset)) with
  | .eof => .error .eofErr
  | .fault => .error .faultErr
  | .ok _ pos =>
    match storeRead s.storeBuf pos with
    | none => .error .ioErr
    | some bytes => .ok (unmarshalRec bytes)

/-- The log: configuration and ordered segment list.  In log.go
`activeSegment` is a pointer that aliases the LAST element of `segments`
whenever any segment exists: `newSegment` appends and re-points it, and
whenever `Truncate` retains any segment it retains the last one.  It is
therefore modelled as `segments.getLast?`; the degenerate state in which
`Truncate` removed every segment while the Go pointer still references the
removed tail is modelled by `logAppend` returning `none`. -/
structure GoLog where
  config : Config
  segments : List Segment
deriving DecidableEq, Repr

/-- `Log.Append` (log.go lines 78–89): append to the active (last) segment;
on success, if that segment is now maxed, rotate by creating a fresh segment
at `off + 1`, which becomes the new active segment.  The returned log is the
post-state (also on the error path, where the store holds orphan bytes). -/
def logAppend (l : GoLog) (r : Rec) : Option Nat × GoLog :=
  match l.segments.getLast? with
  | none => (none, l)
  | some act =>
    match segAppend act r with
    | (none, act2) => (none, { l with segments := l.segments.dropLast ++ [act2] })
    | (some off, act2) =>
      if isMaxed l.config act2 then
        (some off,
         { l with segments :=
             (l.segments.dropLast ++ [act2]) ++ [newSegmentFresh l.config (off + 1)] })
      else (some off, { l with segments := l.segments.dropLast ++ [act2] })

/-- The linear scan of `Log.Read` (log.go lines 111–116): first segment whose
`[baseOffset, nextOffset)` contains `off`. -/
def findSeg : List Segment → Nat → Option Segment
  | [], _ => none
  | s :: rest, off =>
    if s.baseOffset ≤ off ∧ off < s.nextOffset then some s else findSeg rest off

/-- `Log.Read` (log.go lines 107–121): scan for the containing segment, else
the "offset out of range" error; delegate to `segment.Read`.  Reading never
mutates the log, so no post-state is returned. -/
def logRead (l : GoLog) (off : Nat) : Except LogErr Rec :=
  match findSeg l.segments off with
  | none => .error .offsetOutOfRange
  | some s => segRead s off

/-- `Log.Truncate` (log.go lines 174–189): keep exactly the segments with
`nextOffset > lowest + 1`; the others are `Remove`d. -/
def logTruncate (l : GoLog) (lowest : Nat) : GoLog :=
  { l with segments := l.segments.filter fun s => lowest + 1 < s.nextOffset }

/-- `Log.LowestOffset` (log.go lines 153–157): `segments[0].baseOffset`;
`none` models the index-out-of-range fault on an empty segment list. -/
def lowestOffset (l : GoLog) : Option Nat :=
  l.segments.head?.map (·.baseOffset)

/-- `Log.HighestOffset` (log.go lines 161–169): `segments[len-1].nextOffset`,
minus one unless zero; `none` models the fault on an empty segment list. -/
def highestOffset (l : GoLog) : Option Nat :=
  l.segments.getLast?.map (fun s => if s.nextOffset = 0 then 0 else s.nextOffset - 1)

/-- `NewLog` + `setup` on an empty directory (log.go lines 26–74): default
the config and create one fresh segment at `InitialOffset`. -/
def newLogEmptyDir (c : Config) : GoLog :=
  ⟨normalizeConfig c,
   [newSegmentFresh (normalizeConfig c) (normalizeConfig c).initialOffset]⟩

/-- Iterated `Log.Append`: `none` as soon as one append fails, otherwise the
final log and the returned offsets, in order. -/
def appendAll (l : GoLog) : List Rec → Option (GoLog × List Nat)
  | [] => some (l, [])
  | r :: rs =>
    match logAppend l r with
    | (some off, l2) =>
      match appendAll l2 rs with
      | some (lf, offs) => some (lf, off :: offs)
      | none => none
    | (none, _) => none

/-- Adjacent contiguity of the segment list (spec I2):
`segments[i+1].baseOffset = segments[i].nextOffset`. -/
def Chained : List Segment → Prop
  | [] => True
  | [_] => True
  | a :: b :: rest => b.baseOffset = a.nextOffset ∧ Chained (b :: rest)

/-- Geometric well-formedness of a log's segment list: contiguous, and every
segment's range is non-degenerate (`baseOffset ≤ nextOffset`). -/
def GeomInv (l : GoLog) : Prop :=
  Chained l.segments ∧ ∀ s ∈ l.segments, s.baseOffset ≤ s.nextOffset

/-- A segment read at `off` yields payload `v` (the record's offset field is
existential; claim C1 is about the payload bytes). -/
def SegReadsVal (s : Segment) (off : Nat) (v : List Nat) : Prop :=
  ∃ o, segRead s off = .ok ⟨v, o⟩

/-- A log read at `off` yields payload `v`. -/
def LogReadsVal (l : GoLog) (off : Nat) (v : List Nat) : Prop :=
  ∃ o, logRead l off = .ok ⟨v, o⟩

/-- Per-segment invariant for the round-trip proof, relative to the map
`vals` from assigned offsets to payloads: index bookkeeping is consistent
and every offset in range reads back its payload. -/
def SegOK (c : Config) (vals : Nat → List Nat) (s : Segment) : Prop :=
  s.baseOffset ≤ s.nextOffset ∧
  s.indexSize = (s.nextOffset - s.baseOffset) * 12 ∧
  s.indexMMap.length = c.maxIndexBytes ∧
  s.indexSize ≤ c.maxIndexBytes ∧
  ∀ off, s.baseOffset ≤ off → off < s.nextOffset → SegReadsVal s off (vals off)

/-- Whole-log invariant for the round-trip proof (default configuration,
reachable from a fresh log by appends): geometry anchored at base offset 0,
every segment `SegOK`, and the active (last) segment not maxed. -/
def LogOK (vals : Nat → List Nat) (l : GoLog) : Prop :=
  l.config = ⟨1024, 36, 0⟩ ∧
  l.segments ≠ [] ∧
  Chained l.segments ∧
  (∀ y, l.segments.head? = some y → y.baseOffset = 0) ∧
  (∀ s ∈ l.segments, SegOK l.config vals s) ∧
  (∀ s, l.segments.getLast? = some s → isMaxed l.config s = false)

/-- The next offset the log will assign (`activeSegment.nextOffset`). -/
def lastNext (l : GoLog) : Nat :=
  (l.segments.getLast?.map (·.nextOffset)).getD 0

/-- Point update of an offsets-to-payloads map. -/
def updVals (vals : Nat → List Nat) (off : Nat) (v : List Nat) : Nat → List Nat :=
  fun o => if o = off then v else vals o

/-- The offsets-to-payloads map after appending `rs` starting at offset
`b`. -/
def valsAfter (vals : Nat → List Nat) (b : Nat) (rs : List Rec) : Nat → List Nat :=
  fun o => if b ≤ o ∧ o < b + rs.length then (rs.getD (o - b) ⟨[], 0⟩).value else vals o

/-- Concrete round-trip scenario: four records appended to a fresh default
log (the fourth lands in a second segment after rotation). -/
def rt4recs : List Rec := [⟨[1], 0⟩, ⟨[2, 3], 0⟩, ⟨[4], 0⟩, ⟨[5, 6, 7], 0⟩]

/-- The log after the four appends of `rt4recs`. -/
def rt4log : GoLog :=
  ((appendAll (newLogEmptyDir ⟨0, 0, 0⟩) rt4recs).getD
    (newLogEmptyDir ⟨0, 0, 0⟩, [])).1

/-- The offsets returned by the four appends of `rt4recs`. -/
def rt4offs : List Nat :=
  ((appendAll (newLogEmptyDir ⟨0, 0, 0⟩) rt4recs).getD
    (newLogEmptyDir ⟨0, 0, 0⟩, [])).2

/-! ### Byte-level lemmas -/

theorem getD_take {l : List Nat} {i j : Nat} (h : i < j) :
    (l.take j).getD i 0 = l.getD i 0 := by
  rw [List.getD_eq_getElem?_getD, List.getD_eq_getElem?_getD, List.getElem?_take,
    if_pos h]

theorem be32_take {l : List Nat} {n : Nat} (h : 4 ≤ n) :
    be32 (l.take n) = be32 l := by
  unfold be32
  rw [getD_take (by omega), getD_take (by omega), getD_take (by omega),
    getD_take (by omega)]

theorem goSlice_pos (b : List Nat) (lo hi : Nat) (h1 : lo ≤ hi)
    (h2 : hi ≤ b.length) :
    goSlice b lo hi = some ((b.drop lo).take (hi - lo)) := by
  unfold goSlice
  rw [if_pos ⟨h1, h2⟩]

theorem goSlice_neg (b : List Nat) (lo hi : Nat) (h : b.length < hi) :
    goSlice b lo hi = none := by
  unfold goSlice
  rw [if_neg]
  omega

/-! ### C9 -/

/-- C9: the duplicated index `Read` implementations — `Index.Read`, which
slices 12 bytes (`mMap[pos : pos+entWidth]`) for the offset decode, and
`index.Read`, which slices 4 (`mMap[pos : pos+offWidth]`) — return identical
results for every mapped-file contents, size and argument, because
big-endian `Uint32` reads only the first four bytes of its slice and both
variants fault under exactly the same bounds conditions. -/
theorem Index_read_impls_agree (m : List Nat) (size : Nat) (inp : Int) :
    IndexReadCap m size inp = indexRead m size inp := by
  unfold IndexReadCap indexRead
  by_cases h0 : size = 0
  · simp [h0]
  · rw [if_neg h0, if_neg h0]
    by_cases h1 : size < indexOut size inp * 12 + 12
    · rw [if_pos h1, if_pos h1]
    · rw [if_neg h1, if_neg h1]
      by_cases h2 : indexOut size inp * 12 + 12 ≤ m.length
      · rw [goSlice_pos m (indexOut size inp * 12) (indexOut size inp * 12 + 12)
            (by omega) h2,
          goSlice_pos m (indexOut size inp * 12) (indexOut size inp * 12 + 4)
            (by omega) (by omega),
          goSlice_pos m (indexOut size inp * 12 + 4) (indexOut size inp * 12 + 12)
            (by omega) (by omega)]
        dsimp only
        have e1 : indexOut size inp * 12 + 12 - indexOut size inp * 12 = 12 := by
          omega
        have e2 : indexOut size inp * 12 + 4 - indexOut size inp * 12 = 4 := by
          omega
        rw [e1, e2, be32_take (by omega), be32_take (by omega)]
      · rw [goSlice_neg m (indexOut size inp * 12) (indexOut size inp * 12 + 12)
            (by omega),
          goSlice_neg m (indexOut size inp * 12 + 4) (indexOut size inp * 12 + 12)
            (by omega)]
        cases goSlice m (indexOut size inp * 12) (indexOut size inp * 12 + 4) <;> rfl

/-! ### C8 -/

theorem indexOut_natCast (size : Nat) (j : Nat) (hj : j < 2 ^ 32) :
    indexOut size (j : Int) = j := by
  unfold indexOut int64ToU32
  rw [if_neg (by omega)]
  omega

theorem indexOut_negOne (size : Nat) (k : Nat) (hsz : size = 12 * k)
    (h1 : 1 ≤ k) (hk : k ≤ 2 ^ 32) : indexOut size (-1) = k - 1 := by
  unfold indexOut u32cast u64sub
  rw [if_pos rfl]
  have : size / 12 = k := by omega
  rw [this]
  omega

/-- The decoded entry when all 12 bytes are mapped. -/
theorem entryAt_pos (m : List Nat) (j : Nat) (h : j * 12 + 12 ≤ m.length) :
    entryAt m j =
      some (be32 ((m.drop (j * 12)).take 4), be64 ((m.drop (j * 12 + 4)).take 8)) := by
  unfold entryAt
  rw [goSlice_pos m (j * 12) (j * 12 + 4) (by omega) (by omega),
    goSlice_pos m (j * 12 + 4) (j * 12 + 12) (by omega) h]
  have e1 : j * 12 + 4 - j * 12 = 4 := by omega
  have e2 : j * 12 + 12 - (j * 12 + 4) = 8 := by omega
  rw [e1, e2]

/-- A successful `index.Read` in terms of the selected entry index. -/
theorem indexRead_okAt (m : List Nat) (size : Nat) (inp : Int) (j : Nat)
    (ho : indexOut size inp = j) (h0 : size ≠ 0) (h1 : j * 12 + 12 ≤ size)
    (h2 : j * 12 + 12 ≤ m.length) :
    indexRead m size inp =
      .ok (be32 ((m.drop (j * 12)).take 4)) (be64 ((m.drop (j * 12 + 4)).take 8)) := by
  unfold indexRead
  rw [ho, if_neg h0, if_neg (by omega),
    goSlice_pos m (j * 12) (j * 12 + 4) (by omega) (by omega),
    goSlice_pos m (j * 12 + 4) (j * 12 + 12) (by omega) h2]
  have e1 : j * 12 + 4 - j * 12 = 4 := by omega
  have e2 : j * 12 + 12 - (j * 12 + 4) = 8 := by omega
  rw [e1, e2]

/-- C8 (amended): for an index holding `k` complete entries
(`size = 12·k`, `k ≤ 2^32`, all mapped), `Read(-1)` returns the entry at
index `k − 1` (EOF when `k = 0`), and for `0 ≤ n < 2^32` `Read(n)` returns
the entry at index `n`, failing with EOF exactly when `size = 0` or
`size < (n+1)·entWidth`.  (The claim's unbounded version fails: the `int64`
argument is truncated to `uint32`, so `n ≥ 2^32` aliases `n mod 2^32` — see
the counterexample.) -/
theorem index_read_entry_spec (m : List Nat) (k : Nat)
    (hk : k ≤ 2 ^ 32) (hmap : 12 * k ≤ m.length) :
    (k = 0 → indexRead m (12 * k) (-1) = .eof) ∧
    (1 ≤ k → ∃ o p, entryAt m (k - 1) = some (o, p) ∧
       indexRead m (12 * k) (-1) = .ok o p) ∧
    (∀ j : Nat, j < 2 ^ 32 →
      (j + 1 ≤ k → ∃ o p, entryAt m j = some (o, p) ∧
         indexRead m (12 * k) (j : Int) = .ok o p) ∧
      (12 * k = 0 ∨ 12 * k < (j + 1) * 12 →
         indexRead m (12 * k) (j : Int) = .eof)) := by
  refine ⟨?_, ?_, ?_⟩
  · intro h0
    unfold indexRead
    rw [if_pos (by omega)]
  · intro h1
    refine ⟨be32 ((m.drop ((k - 1) * 12)).take 4),
      be64 ((m.drop ((k - 1) * 12 + 4)).take 8),
      entryAt_pos m (k - 1) (by omega),
      indexRead_okAt m (12 * k) (-1) (k - 1)
        (indexOut_negOne (12 * k) k rfl h1 hk) (by omega) (by omega) (by omega)⟩
  · intro j hj
    constructor
    · intro hjk
      exact ⟨be32 ((m.drop (j * 12)).take 4),
        be64 ((m.drop (j * 12 + 4)).take 8),
        entryAt_pos m j (by omega),
        indexRead_okAt m (12 * k) (j : Int) j
          (indexOut_natCast (12 * k) j hj) (by omega) (by omega) (by omega)⟩
    · intro heof
      unfold indexRead
      rw [indexOut_natCast (12 * k) j hj]
      by_cases k0 : 12 * k = 0
      · rw [if_pos k0]
      · have h1 : 12 * k < j * 12 + 12 := by omega
        rw [if_neg k0, if_pos h1]

/-- Witness for C8's amended theorem: a 2-entry index, reading entry 1. -/
theorem index_read_entry_spec_witness :
    ∃ o p, entryAt (List.replicate 24 0) 1 = some (o, p) ∧
      indexRead (List.replicate 24 0) (12 * 2) ((1 : Nat) : Int) = .ok o p :=
  ((index_read_entry_spec (List.replicate 24 0) 2 (by norm_num)
    (by simp)).2.2 1 (by norm_num)).1 (by norm_num)

/-- C8 counterexample: on an index with one complete entry (`size = 12`),
`index.Read` with `n = 2^32` returns entry 0 successfully, although the
claim requires EOF because `size < (n+1)·entWidth`. -/
theorem index_read_truncation_counterexample :
    indexRead (List.replicate 12 0) 12 (2 ^ 32 : Int) = .ok 0 0 ∧
    (12 : Nat) < ((2 ^ 32 : Nat) + 1) * 12 := by
  constructor
  · decide
  · norm_num

/-! ### List helper lemmas -/

theorem getLast?_cons_ne_nil {α} (x : α) {l : List α} (h : l ≠ []) :
    (x :: l).getLast? = l.getLast? := by
  cases l with
  | nil => exact absurd rfl h
  | cons y ys => exact List.getLast?_cons_cons

theorem getLast?_filter {α} (p : α → Bool) (l : List α) (a : α)
    (h : l.getLast? = some a) (hp : p a = true) :
    (l.filter p).getLast? = some a := by
  induction l with
  | nil => simp at h
  | cons x xs ih =>
    cases xs with
    | nil =>
      simp only [List.getLast?_singleton, Option.some.injEq] at h
      subst h
      simp [List.filter, hp]
    | cons y ys =>
      rw [List.getLast?_cons_cons] at h
      have htail := ih h
      rw [List.filter_cons]
      by_cases hx : p x
      · rw [if_pos hx]
        have hne : (y :: ys).filter p ≠ [] := by
          intro he
          rw [he] at htail
          exact Option.noConfusion htail
        rw [getLast?_cons_ne_nil x hne]
        exact htail
      · rw [if_neg hx]
        exact htail

/-! ### Per-append bookkeeping lemmas -/

/-- A successful `segment.Append` returns the old `nextOffset` and advances
it by one. -/
theorem segAppend_ok_next (s : Segment) (r : Rec) (off : Nat) (s2 : Segment)
    (h : segAppend s r = (some off, s2)) :
    off = s.nextOffset ∧ s2.nextOffset = s.nextOffset + 1 := by
  unfold segAppend storeAppend at h
  dsimp only at h
  cases hw : indexWrite s.indexMMap s.indexSize
      (u32cast (u64sub s.nextOffset s.baseOffset)) s.storeBuf.length with
  | none =>
    rw [hw] at h
    simp at h
  | some pr =>
    obtain ⟨m2, sz2⟩ := pr
    rw [hw] at h
    simp only [Prod.mk.injEq, Option.some.injEq] at h
    obtain ⟨ho, hs⟩ := h
    subst ho
    subst hs
    exact ⟨rfl, rfl⟩

/-- A successful `Log.Append` appends at the active (last) segment's
`nextOffset`, and afterwards the active segment's `nextOffset` is `off + 1`
(also across a rotation). -/
theorem logAppend_ok (l : GoLog) (r : Rec) (off : Nat) (l2 : GoLog)
    (h : logAppend l r = (some off, l2)) :
    ∃ act, l.segments.getLast? = some act ∧ off = act.nextOffset ∧
      lastNext l2 = off + 1 := by
  unfold logAppend at h
  cases hl : l.segments.getLast? with
  | none =>
    rw [hl] at h
    simp at h
  | some act =>
    rw [hl] at h
    dsimp only at h
    cases ha : segAppend act r with
    | mk res act2 =>
      rw [ha] at h
      cases res with
      | none => simp at h
      | some o =>
        dsimp only at h
        obtain ⟨ho, hnext⟩ := segAppend_ok_next act r o act2 ha
        by_cases hm : isMaxed l.config act2
        · rw [if_pos hm] at h
          simp only [Prod.mk.injEq, Option.some.injEq] at h
          obtain ⟨hoo, hl2⟩ := h
          refine ⟨act, rfl, by omega, ?_⟩
          rw [← hl2]
          unfold lastNext newSegmentFresh
          rw [List.getLast?_concat]
          simp
          omega
        · rw [if_neg hm] at h
          simp only [Prod.mk.injEq, Option.some.injEq] at h
          obtain ⟨hoo, hl2⟩ := h
          refine ⟨act, rfl, by omega, ?_⟩
          rw [← hl2]
          unfold lastNext
          rw [List.getLast?_concat]
          simp
          omega

/-! ### C2 -/

/-- C2: for every log and every pair of consecutive successful `Log.Append`
calls, the second returned offset is exactly one more than the first —
`nextOffset` advances by 1 per append, and a rotation creates the new active
segment at `off + 1`, so the property holds across rotation too. -/
theorem append_offsets_consecutive (l : GoLog) (r1 r2 : Rec)
    (off1 off2 : Nat) (l1 l2 : GoLog)
    (h1 : logAppend l r1 = (some off1, l1))
    (h2 : logAppend l1 r2 = (some off2, l2)) :
    off2 = off1 + 1 := by
  obtain ⟨act, hl, ho1, hln⟩ := logAppend_ok l r1 off1 l1 h1
  obtain ⟨act2, hl2, ho2, hln2⟩ := logAppend_ok l1 r2 off2 l2 h2
  unfold lastNext at hln
  rw [hl2] at hln
  simp at hln
  omega

/-- Witness for C2: two appends on a fresh default log return offsets 0 and
1. -/
theorem append_offsets_consecutive_witness : (1 : Nat) = 0 + 1 :=
  append_offsets_consecutive (newLogEmptyDir ⟨0, 0, 0⟩) ⟨[1], 0⟩ ⟨[2], 0⟩ 0 1
    (logAppend (newLogEmptyDir ⟨0, 0, 0⟩) ⟨[1], 0⟩).2
    (logAppend (logAppend (newLogEmptyDir ⟨0, 0, 0⟩) ⟨[1], 0⟩).2 ⟨[2], 0⟩).2
    (by decide) (by decide)

/-! ### C4 -/

/-- C4: `Log.Truncate(lowest)` removes exactly the segments whose
`nextOffset ≤ lowest + 1` and retains the rest in their original order; in
particular, on segments `[0..10), [10..20), [20..30)`, `Truncate(14)` removes
only `[0..10)` and retains `[10..20)` because `20 > 15`. -/
theorem truncate_filters (l : GoLog) (lowest : Nat) :
    (logTruncate l lowest).segments =
      l.segments.filter (fun s => lowest + 1 < s.nextOffset) ∧
    (∀ s, s ∈ (logTruncate l lowest).segments ↔
      s ∈ l.segments ∧ ¬(s.nextOffset ≤ lowest + 1)) ∧
    List.Sublist (logTruncate l lowest).segments l.segments ∧
    (logTruncate
        ⟨⟨1024, 36, 0⟩,
          [⟨0, 10, [], [], 0⟩, ⟨10, 20, [], [], 0⟩, ⟨20, 30, [], [], 0⟩]⟩
        14).segments =
      [⟨10, 20, [], [], 0⟩, ⟨20, 30, [], [], 0⟩] := by
  refine ⟨rfl, ?_, List.filter_sublist _, by decide⟩
  intro s
  unfold logTruncate
  simp only [List.mem_filter, decide_eq_true_eq]
  constructor
  · rintro ⟨hm, hlt⟩
    exact ⟨hm, by omega⟩
  · rintro ⟨hm, hle⟩
    exact ⟨hm, by omega⟩

/-! ### C5 -/

/-- C5 counterexample: on a fresh default log — one empty active segment at
base 0 — `Truncate(0)` removes the active segment, leaving no segments, so
Truncate is not the identity on the active slot. -/
theorem truncate_removes_active_counterexample :
    (newLogEmptyDir ⟨0, 0, 0⟩).segments.getLast? =
      some (newSegmentFresh ⟨1024, 36, 0⟩ 0) ∧
    (logTruncate (newLogEmptyDir ⟨0, 0, 0⟩) 0).segments = [] := by
  constructor
  · decide
  · decide

/-- C5 (amended): `Truncate(lowest)` retains the active (last) segment, which
stays last, exactly when `lowest + 1 < active.nextOffset`; when
`active.nextOffset ≤ lowest + 1` (possible when the active segment is empty
or all its records have offsets ≤ lowest) it is removed like any other
segment. -/
theorem truncate_active_boundary (l : GoLog) (lowest : Nat) (act : Segment)
    (h : l.segments.getLast? = some act) :
    (lowest + 1 < act.nextOffset →
      (logTruncate l lowest).segments.getLast? = some act) ∧
    (act.nextOffset ≤ lowest + 1 →
      act ∉ (logTruncate l lowest).segments) := by
  constructor
  · intro h2
    exact getLast?_filter _ _ _ h (by simpa using h2)
  · intro h2 hmem
    unfold logTruncate at hmem
    simp only [List.mem_filter, decide_eq_true_eq] at hmem
    omega

/-- Witness for C5's amended theorem: truncating below the data preserves the
active segment of a log with segments `[0..10), [10..20)`. -/
theorem truncate_active_boundary_witness :
    (logTruncate ⟨⟨1024, 36, 0⟩, [⟨0, 10, [], [], 0⟩, ⟨10, 20, [], [], 0⟩]⟩
      5).segments.getLast? = some ⟨10, 20, [], [], 0⟩ :=
  (truncate_active_boundary
    ⟨⟨1024, 36, 0⟩, [⟨0, 10, [], [], 0⟩, ⟨10, 20, [], [], 0⟩]⟩ 5
    ⟨10, 20, [], [], 0⟩ (by decide)).1 (by decide)

/-! ### C6 -/

/-- C6 counterexample: on a fresh log at initial offset 16 the tail segment
is empty (contains no records), yet `HighestOffset` returns 15, not 0: the
code tests `nextOffset == 0`, not tail emptiness. -/
theorem highest_offset_counterexample :
    (∀ s ∈ (newLogEmptyDir ⟨0, 0, 16⟩).segments, s.nextOffset = s.baseOffset) ∧
    highestOffset (newLogEmptyDir ⟨0, 0, 16⟩) = some 15 := by
  constructor
  · decide
  · decide

/-- C6 (amended): for a non-empty segment list, `HighestOffset` returns
`segments[last].nextOffset − 1` whenever that `nextOffset` is non-zero, and
returns 0 exactly when `nextOffset = 0` (an empty tail at base offset 0);
an empty tail at a non-zero base yields `baseOffset − 1`, not 0. -/
theorem highest_offset_spec (l : GoLog) (act : Segment)
    (h : l.segments.getLast? = some act) :
    (act.nextOffset ≠ 0 → highestOffset l = some (act.nextOffset - 1)) ∧
    (act.nextOffset = 0 → highestOffset l = some 0) := by
  unfold highestOffset
  rw [h]
  constructor
  · intro h2
    simp [h2]
  · intro h2
    simp [h2]

/-- Witness for C6's amended theorem, on a one-segment log `[0..5)`. -/
theorem highest_offset_spec_witness :
    highestOffset ⟨⟨1024, 36, 0⟩, [⟨0, 5, [], [], 0⟩]⟩ = some 4 :=
  (highest_offset_spec ⟨⟨1024, 36, 0⟩, [⟨0, 5, [], [], 0⟩]⟩ ⟨0, 5, [], [], 0⟩
    (by decide)).1 (by decide)

/-! ### C10 -/

/-- C10: when every segment (including an empty active one) has
`nextOffset ≤ lowest + 1`, `Truncate(lowest)` leaves the segment list empty,
and on an empty segment list `LowestOffset` and `HighestOffset` have no
defined result (they index `segments[0]` / `segments[len-1]` unguarded —
`none` models the panic). -/
theorem truncate_can_empty_accessors_unsafe (l : GoLog) (lowest : Nat)
    (h : ∀ s ∈ l.segments, s.nextOffset ≤ lowest + 1) :
    (logTruncate l lowest).segments = [] ∧
    lowestOffset (logTruncate l lowest) = none ∧
    highestOffset (logTruncate l lowest) = none ∧
    (∀ l2 : GoLog, l2.segments = [] →
      lowestOffset l2 = none ∧ highestOffset l2 = none) := by
  have he : (logTruncate l lowest).segments = [] := by
    unfold logTruncate
    simp only [List.filter_eq_nil_iff, decide_eq_true_eq]
    intro s hs
    have := h s hs
    omega
  refine ⟨he, ?_, ?_, ?_⟩
  · unfold lowestOffset
    rw [he]
    rfl
  · unfold highestOffset
    rw [he]
    rfl
  · intro l2 h2
    unfold lowestOffset highestOffset
    rw [h2]
    exact ⟨rfl, rfl⟩

/-- Witness for C10: a fresh default log truncated at 0 loses its only
(empty, active) segment. -/
theorem truncate_can_empty_accessors_unsafe_witness :
    (logTruncate (newLogEmptyDir ⟨0, 0, 0⟩) 0).segments = [] ∧
    lowestOffset (logTruncate (newLogEmptyDir ⟨0, 0, 0⟩) 0) = none ∧
    highestOffset (logTruncate (newLogEmptyDir ⟨0, 0, 0⟩) 0) = none ∧
    (∀ l2 : GoLog, l2.segments = [] →
      lowestOffset l2 = none ∧ highestOffset l2 = none) :=
  truncate_can_empty_accessors_unsafe (newLogEmptyDir ⟨0, 0, 0⟩) 0 (by decide)

/-! ### Segment-list geometry lemmas -/

theorem chained_cons {a : Segment} {rest : List Segment}
    (h : Chained (a :: rest)) : Chained rest := by
  cases rest with
  | nil => trivial
  | cons b t => exact h.2

theorem chained_cons_iff {x : Segment} {l : List Segment} :
    Chained (x :: l) ↔
      Chained l ∧ ∀ y, l.head? = some y → y.baseOffset = x.nextOffset := by
  cases l with
  | nil => simp [Chained]
  | cons y ys =>
    constructor
    · intro h
      refine ⟨h.2, fun z hz => ?_⟩
      simp only [List.head?_cons, Option.some.injEq] at hz
      subst hz
      exact h.1
    · intro h
      exact ⟨h.2 y rfl, h.1⟩

theorem chained_head_le {a : Segment} {rest : List Segment}
    (hc : Chained (a :: rest))
    (hwf : ∀ s ∈ a :: rest, s.baseOffset ≤ s.nextOffset) :
    ∀ y ∈ rest, a.nextOffset ≤ y.baseOffset := by
  induction rest generalizing a with
  | nil =>
    intro y hy
    simp at hy
  | cons b t ih =>
    intro y hy
    obtain ⟨hb, hct⟩ := hc
    rcases List.mem_cons.mp hy with rfl | hyt
    · omega
    · have hbwf := hwf b (by simp)
      have := ih hct (fun s hs => hwf s (List.mem_cons_of_mem a hs)) y hyt
      omega

theorem chained_pairwise {ss : List Segment} (hc : Chained ss)
    (hwf : ∀ s ∈ ss, s.baseOffset ≤ s.nextOffset) :
    List.Pairwise (fun x y => x.nextOffset ≤ y.baseOffset) ss := by
  induction ss with
  | nil => exact List.Pairwise.nil
  | cons a rest ih =>
    exact List.Pairwise.cons (chained_head_le hc hwf)
      (ih (chained_cons hc) (fun s hs => hwf s (List.mem_cons_of_mem a hs)))

theorem next_le_lastNext {ss : List Segment} (hc : Chained ss)
    (hwf : ∀ s ∈ ss, s.baseOffset ≤ s.nextOffset) {a : Segment}
    (hl : ss.getLast? = some a) : ∀ s ∈ ss, s.nextOffset ≤ a.nextOffset := by
  induction ss with
  | nil => simp at hl
  | cons x xs ih =>
    intro s hs
    cases xs with
    | nil =>
      simp only [List.getLast?_singleton, Option.some.injEq] at hl
      simp only [List.mem_singleton] at hs
      subst hl
      subst hs
      exact le_refl _
    | cons y ys =>
      rw [List.getLast?_cons_cons] at hl
      have htail := ih (chained_cons hc)
        (fun t ht => hwf t (List.mem_cons_of_mem x ht)) hl
      rcases List.mem_cons.mp hs with rfl | hs'
      · have hy := htail y (by simp)
        have hwy := hwf y (by simp)
        obtain ⟨hb, _⟩ := hc
        omega
      · exact htail s hs'

theorem chained_append_last {ss : List Segment} {z : Segment}
    (hc : Chained ss)
    (h : ∀ y, ss.getLast? = some y → z.baseOffset = y.nextOffset) :
    Chained (ss ++ [z]) := by
  induction ss with
  | nil => trivial
  | cons x xs ih =>
    rw [List.cons_append, chained_cons_iff]
    constructor
    · refine ih (chained_cons hc) ?_
      intro y hy
      apply h
      have hne : xs ≠ [] := by
        intro he
        rw [he] at hy
        exact Option.noConfusion hy
      rw [getLast?_cons_ne_nil x hne]
      exact hy
    · intro y hy
      cases xs with
      | nil =>
        simp only [List.nil_append, List.head?_cons, Option.some.injEq] at hy
        subst hy
        exact h x rfl
      | cons w ws =>
        simp only [List.cons_append, List.head?_cons, Option.some.injEq] at hy
        subst hy
        exact (chained_cons_iff.mp hc).2 w rfl

theorem chained_dropLast {ss : List Segment} (hc : Chained ss) :
    Chained ss.dropLast := by
  induction ss with
  | nil => trivial
  | cons x xs ih =>
    cases xs with
    | nil => trivial
    | cons y ys =>
      have : (x :: y :: ys).dropLast = x :: (y :: ys).dropLast := rfl
      rw [this, chained_cons_iff]
      refine ⟨ih (chained_cons hc), ?_⟩
      intro w hw
      cases ys with
      | nil => simp at hw
      | cons u us =>
        have hd : (y :: u :: us).dropLast = y :: (u :: us).dropLast := rfl
        rw [hd, List.head?_cons, Option.some.injEq] at hw
        subst hw
        exact hc.1

theorem chained_penultimate {ss : List Segment} (hc : Chained ss)
    {act y : Segment} (hl : ss.getLast? = some act)
    (hy : ss.dropLast.getLast? = some y) :
    act.baseOffset = y.nextOffset := by
  induction ss with
  | nil => simp at hl
  | cons x xs ih =>
    cases xs with
    | nil => simp at hy
    | cons w ws =>
      rw [List.getLast?_cons_cons] at hl
      have hd : (x :: w :: ws).dropLast = x :: (w :: ws).dropLast := rfl
      rw [hd] at hy
      cases hws : (w :: ws).dropLast with
      | nil =>
        cases ws with
        | nil =>
          simp only [hws] at hy
          simp only [List.getLast?_singleton, Option.some.injEq] at hy
          simp only [List.getLast?_singleton, Option.some.injEq] at hl
          subst hy
          subst hl
          exact hc.1
        | cons u us =>
          have : (w :: u :: us).dropLast = w :: (u :: us).dropLast := rfl
          rw [this] at hws
          exact List.noConfusion hws
      | cons v vs =>
        have hne : (w :: ws).dropLast ≠ [] := by
          rw [hws]
          exact List.cons_ne_nil v vs
        rw [getLast?_cons_ne_nil x hne] at hy
        exact ih (chained_cons hc) hl hy

theorem chained_replace_last {ss : List Segment} {act act2 : Segment}
    (hc : Chained ss) (hl : ss.getLast? = some act)
    (hb : act2.baseOffset = act.baseOffset) :
    Chained (ss.dropLast ++ [act2]) := by
  refine chained_append_last (chained_dropLast hc) ?_
  intro y hy
  rw [hb]
  exact chained_penultimate hc hl hy

/-! ### Shapes of the append post-states -/

/-- Full shape of a successful `segment.Append`. -/
theorem segAppend_ok_eq (s : Segment) (r : Rec) (off : Nat) (s2 : Segment)
    (h : segAppend s r = (some off, s2)) :
    off = s.nextOffset ∧
    s.indexSize + 12 ≤ s.indexMMap.length ∧
    s2 = { s with
      storeBuf := s.storeBuf ++
        u64be (marshalRec { r with offset := s.nextOffset }).length ++
        marshalRec { r with offset := s.nextOffset },
      indexMMap := writeAt s.indexMMap s.indexSize
        (u32be (u32cast (u64sub s.nextOffset s.baseOffset)) ++
          u64be s.storeBuf.length),
      indexSize := s.indexSize + 12,
      nextOffset := s.nextOffset + 1 } := by
  unfold segAppend storeAppend indexWrite at h
  dsimp only at h
  by_cases hlen : s.indexMMap.length < s.indexSize + 12
  · rw [if_pos hlen] at h
    simp at h
  · rw [if_neg hlen] at h
    dsimp only at h
    simp only [Prod.mk.injEq, Option.some.injEq] at h
    obtain ⟨h1, h2⟩ := h
    exact ⟨h1.symm, by omega, h2.symm⟩

/-- Shape of a failed `segment.Append` (index full): offsets unchanged, the
store keeps the orphan bytes. -/
theorem segAppend_err_eq (s : Segment) (r : Rec) (s2 : Segment)
    (h : segAppend s r = (none, s2)) :
    s2.baseOffset = s.baseOffset ∧ s2.nextOffset = s.nextOffset ∧
    s2.indexSize = s.indexSize ∧ s2.indexMMap = s.indexMMap := by
  unfold segAppend storeAppend indexWrite at h
  dsimp only at h
  by_cases hlen : s.indexMMap.length < s.indexSize + 12
  · rw [if_pos hlen] at h
    dsimp only at h
    simp only [Prod.mk.injEq] at h
    rw [← h.2]
    exact ⟨rfl, rfl, rfl, rfl⟩
  · rw [if_neg hlen] at h
    dsimp only at h
    simp at h

/-! ### `findSeg` lemmas -/

theorem findSeg_eq_none {ss : List Segment} {off : Nat} :
    findSeg ss off = none ↔
      ∀ s ∈ ss, ¬(s.baseOffset ≤ off ∧ off < s.nextOffset) := by
  induction ss with
  | nil => simp [findSeg]
  | cons a rest ih =>
    unfold findSeg
    by_cases h : a.baseOffset ≤ off ∧ off < a.nextOffset
    · rw [if_pos h]
      simp only [List.mem_cons]
      constructor
      · intro hc
        exact Option.noConfusion hc
      · intro hall
        exact absurd h (hall a (Or.inl rfl))
    · rw [if_neg h, ih]
      simp only [List.mem_cons]
      constructor
      · intro hall s hs
        rcases hs with rfl | hs'
        · exact h
        · exact hall s hs'
      · intro hall s hs
        exact hall s (Or.inr hs)

theorem findSeg_mem {ss : List Segment} {off : Nat} {s : Segment}
    (h : findSeg ss off = some s) :
    s ∈ ss ∧ s.baseOffset ≤ off ∧ off < s.nextOffset := by
  induction ss with
  | nil => simp [findSeg] at h
  | cons a rest ih =>
    unfold findSeg at h
    by_cases hc : a.baseOffset ≤ off ∧ off < a.nextOffset
    · rw [if_pos hc] at h
      obtain rfl := Option.some.inj h
      exact ⟨List.mem_cons_self a rest, hc.1, hc.2⟩
    · rw [if_neg hc] at h
      obtain ⟨hm, hb⟩ := ih h
      exact ⟨List.mem_cons_of_mem a hm, hb⟩

/-- `segment.Read` never produces the log-level "offset out of range"
error. -/
theorem segRead_ne_oor (s : Segment) (off : Nat) :
    segRead s off ≠ .error .offsetOutOfRange := by
  unfold segRead
  cases indexRead s.indexMMap s.indexSize (toInt64 (u64sub off s.baseOffset)) with
  | eof => simp
  | fault => simp
  | ok o p =>
    dsimp only
    cases hsr : storeRead s.storeBuf p with
    | none => simp [hsr]
    | some b => simp [hsr]

/-! ### C7 -/

/-- C7: `Log.Read(off)` fails with the offset-out-of-range error exactly when
no segment's `[baseOffset, nextOffset)` range contains `off`; in particular
it fails on a log with no records, and — for a geometrically well-formed
log — on every offset ≥ `HighestOffset + 1`.  `logRead` is a pure function
of the log, so failure leaves the log unchanged by construction. -/
theorem read_offset_out_of_range (l : GoLog) (off : Nat) :
    (logRead l off = .error .offsetOutOfRange ↔
      ∀ s ∈ l.segments, ¬(s.baseOffset ≤ off ∧ off < s.nextOffset)) ∧
    ((∀ s ∈ l.segments, s.nextOffset = s.baseOffset) →
      logRead l off = .error .offsetOutOfRange) ∧
    (GeomInv l → ∀ act hi, l.segments.getLast? = some act →
      highestOffset l = some hi → hi + 1 ≤ off →
      logRead l off = .error .offsetOutOfRange) := by
  have hiff : logRead l off = .error .offsetOutOfRange ↔
      ∀ s ∈ l.segments, ¬(s.baseOffset ≤ off ∧ off < s.nextOffset) := by
    unfold logRead
    cases hf : findSeg l.segments off with
    | none =>
      constructor
      · intro _
        exact findSeg_eq_none.mp hf
      · intro _
        rfl
    | some s =>
      constructor
      · intro hc
        exact absurd hc (segRead_ne_oor s off)
      · intro hall
        obtain ⟨hm, hb⟩ := findSeg_mem hf
        exact absurd hb (hall s hm)
  refine ⟨hiff, ?_, ?_⟩
  · intro hempty
    refine hiff.mpr ?_
    intro s hs
    have := hempty s hs
    omega
  · rintro ⟨hc, hwf⟩ act hi hl hhi hoff
    refine hiff.mpr ?_
    intro s hs
    have hle := next_le_lastNext hc hwf hl s hs
    unfold highestOffset at hhi
    rw [hl] at hhi
    simp at hhi
    by_cases h0 : act.nextOffset = 0
    · rw [if_pos h0] at hhi
      omega
    · rw [if_neg h0] at hhi
      omega

/-- Witness for C7: reading offset 25 on a two-segment log `[0..10), [10..20)`
fails with offset-out-of-range. -/
theorem read_offset_out_of_range_witness :
    logRead ⟨⟨1024, 36, 0⟩, [⟨0, 10, [], [], 0⟩, ⟨10, 20, [], [], 0⟩]⟩ 25 =
      .error .offsetOutOfRange :=
  (read_offset_out_of_range
      ⟨⟨1024, 36, 0⟩, [⟨0, 10, [], [], 0⟩, ⟨10, 20, [], [], 0⟩]⟩ 25).2.2
    ⟨⟨rfl, trivial⟩, by decide⟩ ⟨10, 20, [], [], 0⟩ 19 (by decide) (by decide)
    (by decide)

/-! ### C3 -/

/-- Geometry is preserved by a successful or failed `Log.Append`. -/
theorem geomInv_logAppend {l : GoLog} {r : Rec} {res : Option Nat}
    {l2 : GoLog} (hg : GeomInv l) (h : logAppend l r = (res, l2)) :
    GeomInv l2 := by
  obtain ⟨hc, hwf⟩ := hg
  unfold logAppend at h
  cases hl : l.segments.getLast? with
  | none =>
    rw [hl] at h
    dsimp only at h
    have h2 : l2 = l := (congrArg Prod.snd h).symm
    rw [h2]
    exact ⟨hc, hwf⟩
  | some act =>
    rw [hl] at h
    dsimp only at h
    have hactmem : act ∈ l.segments := List.mem_of_mem_getLast? hl
    have hactwf := hwf act hactmem
    cases ha : segAppend act r with
    | mk res2 act2 =>
      rw [ha] at h
      cases res2 with
      | none =>
        dsimp only at h
        obtain ⟨hb, hn, -, -⟩ := segAppend_err_eq act r act2 ha
        have hchain2 : Chained (l.segments.dropLast ++ [act2]) :=
          chained_replace_last hc hl hb
        have hwf2 : ∀ s ∈ l.segments.dropLast ++ [act2],
            s.baseOffset ≤ s.nextOffset := by
          intro s hs
          rcases List.mem_append.mp hs with hs' | hs'
          · exact hwf s (List.Sublist.mem hs' (List.dropLast_sublist _))
          · rw [List.mem_singleton] at hs'
            subst hs'
            omega
        have h2 : l2 = { l with segments := l.segments.dropLast ++ [act2] } :=
          (congrArg Prod.snd h).symm
        rw [h2]
        exact ⟨hchain2, hwf2⟩
      | some o =>
        dsimp only at h
        obtain ⟨ho, hroom, hshape⟩ := segAppend_ok_eq act r o act2 ha
        have hb : act2.baseOffset = act.baseOffset := by rw [hshape]
        have hn : act2.nextOffset = act.nextOffset + 1 := by rw [hshape]
        have hchain2 : Chained (l.segments.dropLast ++ [act2]) :=
          chained_replace_last hc hl hb
        have hwf2 : ∀ s ∈ l.segments.dropLast ++ [act2],
            s.baseOffset ≤ s.nextOffset := by
          intro s hs
          rcases List.mem_append.mp hs with hs' | hs'
          · exact hwf s (List.Sublist.mem hs' (List.dropLast_sublist _))
          · rw [List.mem_singleton] at hs'
            subst hs'
            omega
        by_cases hm : isMaxed l.config act2
        · rw [if_pos hm] at h
          have h2 : l2 = { l with segments :=
              (l.segments.dropLast ++ [act2]) ++
                [newSegmentFresh l.config (o + 1)] } :=
            (congrArg Prod.snd h).symm
          rw [h2]
          refine ⟨?_, ?_⟩
          · refine chained_append_last hchain2 ?_
            intro y hy
            rw [List.getLast?_concat] at hy
            obtain rfl := Option.some.inj hy
            unfold newSegmentFresh
            dsimp only
            omega
          · intro s hs
            rcases List.mem_append.mp hs with hs' | hs'
            · exact hwf2 s hs'
            · rw [List.mem_singleton] at hs'
              subst hs'
              unfold newSegmentFresh
              dsimp only
              omega
        · rw [if_neg hm] at h
          have h2 : l2 = { l with segments := l.segments.dropLast ++ [act2] } :=
            (congrArg Prod.snd h).symm
          rw [h2]
          exact ⟨hchain2, hwf2⟩

/-- Keeping the segments above a truncation bound preserves contiguity: the
removal predicate selects a downward-closed set along the chain, so the
retained segments are a contiguous suffix. -/
theorem chained_filter {ss : List Segment} (low1 : Nat) (hc : Chained ss)
    (hwf : ∀ s ∈ ss, s.baseOffset ≤ s.nextOffset) :
    Chained (ss.filter fun s => low1 < s.nextOffset) := by
  induction ss with
  | nil => trivial
  | cons a rest ih =>
    rw [List.filter_cons]
    by_cases ha : low1 < a.nextOffset
    · rw [if_pos (by simpa using ha)]
      have hall : ∀ y ∈ rest, decide (low1 < y.nextOffset) = true := by
        intro y hy
        have h1 := chained_head_le hc hwf y hy
        have h2 := hwf y (List.mem_cons_of_mem a hy)
        simp only [decide_eq_true_eq]
        omega
      rw [List.filter_eq_self.mpr hall]
      exact hc
    · rw [if_neg (by simpa using ha)]
      exact ih (chained_cons hc) (fun s hs => hwf s (List.mem_cons_of_mem a hs))

/-- Geometry is preserved by `Log.Truncate`. -/
theorem geomInv_logTruncate {l : GoLog} (lowest : Nat) (hg : GeomInv l) :
    GeomInv (logTruncate l lowest) := by
  obtain ⟨hc, hwf⟩ := hg
  unfold logTruncate GeomInv
  dsimp only
  constructor
  · exact chained_filter (lowest + 1) hc hwf
  · intro s hs
    exact hwf s (List.Sublist.mem hs (List.filter_sublist _))

/-- C3: in every geometrically well-formed log state the segment list is
sorted by `baseOffset`, the ranges `[baseOffset, nextOffset)` of distinct
segments are pairwise disjoint, and adjacent segments are contiguous
(`segments[i+1].baseOffset = segments[i].nextOffset`, so the ranges form a
contiguous prefix of the offset space starting at the lowest base offset);
the invariant is preserved by `Log.Append` (including rotation, and the
error path) and by `Log.Truncate`. -/
theorem segment_ranges_invariant (l : GoLog) (r : Rec) (res : Option Nat)
    (l2 : GoLog) (lowest : Nat) (hg : GeomInv l) :
    (List.Pairwise (fun x y => x.baseOffset ≤ y.baseOffset) l.segments ∧
     List.Pairwise (fun x y => ∀ o : Nat,
       ¬(x.baseOffset ≤ o ∧ o < x.nextOffset ∧
         y.baseOffset ≤ o ∧ o < y.nextOffset)) l.segments ∧
     Chained l.segments) ∧
    (logAppend l r = (res, l2) → GeomInv l2) ∧
    GeomInv (logTruncate l lowest) := by
  obtain ⟨hc, hwf⟩ := hg
  have hp := chained_pairwise hc hwf
  refine ⟨⟨?_, ?_, hc⟩, fun h => geomInv_logAppend ⟨hc, hwf⟩ h,
    geomInv_logTruncate lowest ⟨hc, hwf⟩⟩
  · refine List.Pairwise.imp_of_mem ?_ hp
    intro a b ha hb hab
    have := hwf a ha
    omega
  · refine List.Pairwise.imp ?_ hp
    intro a b hab o hcontra
    omega

/-- Witness for C3, on a two-segment log `[0..10), [10..20)` truncated at
14. -/
theorem segment_ranges_invariant_witness :
    GeomInv (logTruncate
      ⟨⟨1024, 36, 0⟩, [⟨0, 10, [], [], 0⟩, ⟨10, 20, [], [], 0⟩]⟩ 14) :=
  (segment_ranges_invariant
    ⟨⟨1024, 36, 0⟩, [⟨0, 10, [], [], 0⟩, ⟨10, 20, [], [], 0⟩]⟩ ⟨[1], 0⟩ none
    ⟨⟨1024, 36, 0⟩, []⟩ 14 ⟨⟨rfl, trivial⟩, by decide⟩).2.2

/-! ### Encoding round-trips and slice stability -/

theorem be64_u64be (n : Nat) : be64 (u64be n) = n % 2 ^ 64 := by
  show (n / 72057594037927936 % 256) * 72057594037927936 +
    (n / 281474976710656 % 256) * 281474976710656 +
    (n / 1099511627776 % 256) * 1099511627776 +
    (n / 4294967296 % 256) * 4294967296 +
    (n / 16777216 % 256) * 16777216 +
    (n / 65536 % 256) * 65536 + (n / 256 % 256) * 256 + n % 256 = n % 2 ^ 64
  omega

theorem be32_u32be (n : Nat) : be32 (u32be n) = n % 2 ^ 32 := by
  show (n / 16777216 % 256) * 16777216 +
    (n / 65536 % 256) * 65536 + (n / 256 % 256) * 256 + n % 256 = n % 2 ^ 32
  omega

theorem u64be_length (n : Nat) : (u64be n).length = 8 := rfl

theorem u32be_length (n : Nat) : (u32be n).length = 4 := rfl

theorem goSlice_append_left (buf e : List Nat) (lo hi : Nat)
    (h : hi ≤ buf.length) : goSlice (buf ++ e) lo hi = goSlice buf lo hi := by
  unfold goSlice
  by_cases hlh : lo ≤ hi
  · have c1 : lo ≤ hi ∧ hi ≤ (buf ++ e).length := by
      rw [List.length_append]
      omega
    rw [if_pos c1, if_pos ⟨hlh, h⟩]
    rw [List.drop_append_of_le_length (le_trans hlh h),
      List.take_append_of_le_length (by rw [List.length_drop]; omega)]
  · rw [if_neg (fun hx => hlh hx.1), if_neg (fun hx => hlh hx.1)]

theorem goSlice_append_right (buf rest : List Nat) (a b : Nat) :
    goSlice (buf ++ rest) (buf.length + a) (buf.length + b) =
      goSlice rest a b := by
  unfold goSlice
  by_cases hab : a ≤ b
  · by_cases hb : b ≤ rest.length
    · have c1 : buf.length + a ≤ buf.length + b ∧
          buf.length + b ≤ (buf ++ rest).length := by
        rw [List.length_append]
        omega
      rw [if_pos c1, if_pos ⟨hab, hb⟩]
      have hd : (buf ++ rest).drop (buf.length + a) = rest.drop a := by
        rw [List.drop_append_eq_append_drop]
        have h1 : (buf.drop (buf.length + a)) = [] :=
          List.drop_eq_nil_of_le (by omega)
        have h2 : buf.length + a - buf.length = a := by omega
        rw [h1, List.nil_append, h2]
      have harg : buf.length + b - (buf.length + a) = b - a := by omega
      rw [hd, harg]
    · have c1 : ¬(buf.length + a ≤ buf.length + b ∧
          buf.length + b ≤ (buf ++ rest).length) := by
        rw [List.length_append]
        omega
      have c2 : ¬(a ≤ b ∧ b ≤ rest.length) := by omega
      rw [if_neg c1, if_neg c2]
  · have c1 : ¬(buf.length + a ≤ buf.length + b ∧
        buf.length + b ≤ (buf ++ rest).length) := by omega
    have c2 : ¬(a ≤ b ∧ b ≤ rest.length) := by omega
    rw [if_neg c1, if_neg c2]

theorem writeAt_length {m : List Nat} {i : Nat} {bs : List Nat}
    (h : i + bs.length ≤ m.length) : (writeAt m i bs).length = m.length := by
  unfold writeAt
  rw [List.length_append, List.length_append, List.length_take,
    List.length_drop]
  omega

theorem goSlice_writeAt_before (m : List Nat) (i : Nat) (bs : List Nat)
    (lo hi : Nat) (hroom : i + bs.length ≤ m.length) (h : hi ≤ i) :
    goSlice (writeAt m i bs) lo hi = goSlice m lo hi := by
  unfold writeAt
  rw [List.append_assoc,
    goSlice_append_left (m.take i) (bs ++ m.drop (i + bs.length)) lo hi
      (by rw [List.length_take]; omega)]
  unfold goSlice
  by_cases hlh : lo ≤ hi
  · have c1 : lo ≤ hi ∧ hi ≤ (m.take i).length := by
      rw [List.length_take]
      omega
    have c2 : lo ≤ hi ∧ hi ≤ m.length := ⟨hlh, by omega⟩
    rw [if_pos c1, if_pos c2, List.drop_take, List.take_take]
    have harg : min (hi - lo) (i - lo) = hi - lo := by omega
    rw [harg]
  · rw [if_neg (fun hx => hlh hx.1), if_neg (fun hx => hlh hx.1)]

theorem goSlice_writeAt_inside (m : List Nat) (i : Nat) (bs : List Nat)
    (a b : Nat) (hroom : i + bs.length ≤ m.length) (hab : a ≤ b)
    (hb : b ≤ bs.length) :
    goSlice (writeAt m i bs) (i + a) (i + b) =
      some ((bs.drop a).take (b - a)) := by
  unfold writeAt
  have hti : (m.take i).length = i := List.length_take_of_le (by omega)
  have h1 : goSlice (m.take i ++ (bs ++ m.drop (i + bs.length))) (i + a) (i + b) =
      goSlice (bs ++ m.drop (i + bs.length)) a b := by
    have := goSlice_append_right (m.take i) (bs ++ m.drop (i + bs.length)) a b
    rw [hti] at this
    exact this
  rw [List.append_assoc, h1,
    goSlice_append_left bs (m.drop (i + bs.length)) a b hb,
    goSlice_pos bs a b hab hb]

/-- A successful `store.Read` is unaffected by bytes appended later. -/
theorem storeRead_mono {buf e : List Nat} {pos : Nat} {v : List Nat}
    (h : storeRead buf pos = some v) : storeRead (buf ++ e) pos = some v := by
  unfold storeRead at h ⊢
  cases h8 : goSlice buf pos (pos + 8) with
  | none =>
    rw [h8] at h
    exact absurd h (by simp)
  | some lenB =>
    rw [h8] at h
    dsimp only at h
    have hb : pos + 8 ≤ buf.length := by
      by_contra hc
      rw [goSlice_neg buf pos (pos + 8) (by omega)] at h8
      exact Option.noConfusion h8
    have hb2 : pos + 8 + be64 lenB ≤ buf.length := by
      by_contra hc
      rw [goSlice_neg buf (pos + 8) (pos + 8 + be64 lenB) (by omega)] at h
      exact Option.noConfusion h
    rw [goSlice_append_left buf e pos (pos + 8) hb, h8]
    dsimp only
    rw [goSlice_append_left buf e (pos + 8) (pos + 8 + be64 lenB) hb2]
    exact h

/-- Reading back the frame just appended by `store.Append` returns the
marshalled bytes. -/
theorem storeRead_frame (buf p : List Nat) (hL : p.length < 2 ^ 64) :
    storeRead (buf ++ (u64be p.length ++ p)) buf.length = some p := by
  have htake : (u64be p.length ++ p).take 8 = u64be p.length := by
    have h := List.take_left (u64be p.length) p
    rw [u64be_length] at h
    exact h
  have hdrop : (u64be p.length ++ p).drop 8 = p := by
    have h := List.drop_left (u64be p.length) p
    rw [u64be_length] at h
    exact h
  have hlen : (u64be p.length ++ p).length = 8 + p.length := by
    rw [List.length_append, u64be_length]
  have h8 : goSlice (buf ++ (u64be p.length ++ p)) buf.length
      (buf.length + 8) = some (u64be p.length) := by
    have hr := goSlice_append_right buf (u64be p.length ++ p) 0 8
    simp only [Nat.add_zero] at hr
    rw [hr, goSlice_pos (u64be p.length ++ p) 0 8 (by omega) (by omega)]
    rw [List.drop_zero, Nat.sub_zero, htake]
  unfold storeRead
  rw [h8]
  dsimp only
  rw [be64_u64be, Nat.mod_eq_of_lt hL]
  have hassoc : buf.length + 8 + p.length = buf.length + (8 + p.length) := by
    omega
  rw [hassoc, goSlice_append_right buf (u64be p.length ++ p) 8 (8 + p.length),
    goSlice_pos (u64be p.length ++ p) 8 (8 + p.length) (by omega) (by omega)]
  rw [hdrop]
  have he : 8 + p.length - 8 = p.length := by omega
  rw [he, List.take_length]

/-! ### Index write/read interplay -/

theorem u64sub_of_le {a b : Nat} (h : b ≤ a) (h2 : a - b < 2 ^ 64) :
    u64sub a b = a - b := by
  unfold u64sub
  omega

theorem toInt64_small {n : Nat} (h : n < 2 ^ 63) : toInt64 n = (n : Int) := by
  unfold toInt64
  rw [Nat.mod_eq_of_lt (show n < 2 ^ 64 by omega), if_pos h]

/-- The argument `int64(off − baseOffset)` of `segment.Read` for an offset at
or above the base. -/
theorem segRead_arg {base off : Nat} (h : base ≤ off)
    (h2 : off - base < 2 ^ 63) :
    toInt64 (u64sub off base) = ((off - base : Nat) : Int) := by
  rw [u64sub_of_le h (by omega), toInt64_small h2]

theorem drop_writeAt (m : List Nat) (i : Nat) (bs : List Nat)
    (h : i + bs.length ≤ m.length) :
    (writeAt m i bs).drop i = bs ++ m.drop (i + bs.length) := by
  unfold writeAt
  rw [List.append_assoc]
  exact List.drop_left' (List.length_take_of_le (by omega))

/-- The 12 bytes written by `index.Write` decode back to the written
offset/position pair. -/
theorem writeAt_entry_bytes (m : List Nat) (i : Nat) (o p : Nat)
    (h : i + 12 ≤ m.length) :
    ((writeAt m i (u32be o ++ u64be p)).drop i).take 4 = u32be o ∧
    ((writeAt m i (u32be o ++ u64be p)).drop (i + 4)).take 8 = u64be p := by
  have hbs : (u32be o ++ u64be p).length = 12 := rfl
  have hd : (writeAt m i (u32be o ++ u64be p)).drop i =
      u32be o ++ (u64be p ++ m.drop (i + 12)) := by
    have h0 := drop_writeAt m i (u32be o ++ u64be p) (by rw [hbs]; omega)
    rw [hbs] at h0
    rw [h0, List.append_assoc]
  constructor
  · rw [hd]
    exact List.take_left' (u32be_length o)
  · have hdd := List.drop_drop 4 i (writeAt m i (u32be o ++ u64be p))
    rw [← hdd, hd, List.drop_left' (u32be_length o)]
    exact List.take_left' (u64be_length p)

/-- `index.Read` of the entry just written by `index.Write`. -/
theorem indexRead_write_new (m : List Nat) (isz o p j : Nat)
    (hsz : isz = j * 12) (hroom : isz + 12 ≤ m.length) (hj : j < 2 ^ 32) :
    indexRead (writeAt m isz (u32be o ++ u64be p)) (isz + 12) ((j : Nat) : Int) =
      .ok (o % 2 ^ 32) (p % 2 ^ 64) := by
  subst hsz
  have hbs : (u32be o ++ u64be p).length = 12 := rfl
  have hroom2 : j * 12 + (u32be o ++ u64be p).length ≤ m.length := by
    rw [hbs]
    omega
  have hmlen : (writeAt m (j * 12) (u32be o ++ u64be p)).length = m.length :=
    writeAt_length hroom2
  have hok := indexRead_okAt (writeAt m (j * 12) (u32be o ++ u64be p))
    (j * 12 + 12) ((j : Nat) : Int) j (indexOut_natCast (j * 12 + 12) j hj)
    (by omega) (by omega) (by omega)
  rw [hok]
  obtain ⟨he1, he2⟩ := writeAt_entry_bytes m (j * 12) o p (by omega)
  rw [he1, he2, be32_u32be, be64_u64be]

/-- `index.Read` of an entry strictly below the write position is unchanged
by `index.Write`. -/
theorem indexRead_write_stable (m : List Nat) (isz : Nat) (bs : List Nat)
    (rel : Nat) (hrel : rel * 12 + 12 ≤ isz)
    (hroom : isz + bs.length ≤ m.length) (h32 : rel < 2 ^ 32) :
    indexRead (writeAt m isz bs) (isz + 12) ((rel : Nat) : Int) =
      indexRead m isz ((rel : Nat) : Int) := by
  unfold indexRead
  rw [indexOut_natCast (isz + 12) rel h32, indexOut_natCast isz rel h32]
  have h0a : ¬(isz + 12 = 0) := by omega
  have h0b : ¬(isz = 0) := by omega
  have g1 : ¬(isz + 12 < rel * 12 + 12) := by omega
  have g2 : ¬(isz < rel * 12 + 12) := by omega
  rw [if_neg h0a, if_neg h0b, if_neg g1, if_neg g2,
    goSlice_writeAt_before m isz bs (rel * 12) (rel * 12 + 4) hroom (by omega),
    goSlice_writeAt_before m isz bs (rel * 12 + 4) (rel * 12 + 12) hroom
      (by omega)]

/-! ### Segment-level round-trip preservation -/

theorem marshalRec_length (r : Rec) :
    (marshalRec r).length = 8 + r.value.length := by
  unfold marshalRec
  rw [List.length_append, u64be_length]

theorem unmarshal_marshal (r : Rec) :
    unmarshalRec (marshalRec r) = ⟨r.value, r.offset % 2 ^ 64⟩ := by
  unfold unmarshalRec marshalRec
  rw [List.drop_left' (u64be_length r.offset),
    List.take_left' (u64be_length r.offset), be64_u64be]

/-- Appending to a non-maxed, well-formed segment (default configuration)
returns the old `nextOffset`, keeps the base, bumps `nextOffset`, and
preserves `SegOK` for the payload map updated at the new offset. -/
theorem segAppend_SegOK {vals : Nat → List Nat} {s s2 : Segment} {r : Rec}
    {off : Nat}
    (hok : SegOK ⟨1024, 36, 0⟩ vals s) (hnm : isMaxed ⟨1024, 36, 0⟩ s = false)
    (hlen : r.value.length < 2 ^ 63)
    (h : segAppend s r = (some off, s2)) :
    off = s.nextOffset ∧ s2.baseOffset = s.baseOffset ∧
    s2.nextOffset = s.nextOffset + 1 ∧
    SegOK ⟨1024, 36, 0⟩ (updVals vals s.nextOffset r.value) s2 := by
  obtain ⟨hble, hisz, hmlen, hiszle, hreads⟩ := hok
  have hnm2 : s.storeBuf.length < 1024 ∧ s.indexSize + 12 ≤ 36 := by
    unfold isMaxed at hnm
    simp only [Bool.or_eq_false_iff, decide_eq_false_iff_not] at hnm
    omega
  obtain ⟨ho, hroom, hshape⟩ := segAppend_ok_eq s r off s2 h
  subst hshape
  subst ho
  have hmlen36 : s.indexMMap.length = 36 := hmlen
  have hcast : u32cast (u64sub s.nextOffset s.baseOffset) =
      s.nextOffset - s.baseOffset := by
    rw [u64sub_of_le hble (by omega)]
    unfold u32cast
    omega
  have hplen : (marshalRec { r with offset := s.nextOffset }).length =
      8 + r.value.length := marshalRec_length _
  refine ⟨rfl, rfl, rfl, ?_, ?_, ?_, ?_, ?_⟩
  · dsimp only
    omega
  · dsimp only
    omega
  · dsimp only
    rw [writeAt_length
      (by rw [List.length_append, u32be_length, u64be_length]; omega)]
    exact hmlen
  · dsimp only
    omega
  · intro off2 hlo hhi
    dsimp only at hlo hhi ⊢
    have hrel63 : off2 - s.baseOffset < 2 ^ 63 := by omega
    by_cases hnew : off2 = s.nextOffset
    · subst hnew
      unfold SegReadsVal segRead
      dsimp only
      rw [segRead_arg hlo hrel63, hcast]
      rw [indexRead_write_new s.indexMMap s.indexSize
        (s.nextOffset - s.baseOffset) s.storeBuf.length
        (s.nextOffset - s.baseOffset) hisz (by omega) (by omega)]
      dsimp only
      have hpos : s.storeBuf.length % 2 ^ 64 = s.storeBuf.length := by omega
      rw [hpos, List.append_assoc,
        storeRead_frame s.storeBuf (marshalRec { r with offset := s.nextOffset })
          (by rw [hplen]; omega)]
      dsimp only
      rw [unmarshal_marshal]
      refine ⟨s.nextOffset % 2 ^ 64, ?_⟩
      unfold updVals
      rw [if_pos rfl]
    · have hold : off2 < s.nextOffset := by omega
      obtain ⟨o2, hread⟩ := hreads off2 hlo hold
      unfold segRead at hread
      rw [segRead_arg hlo hrel63] at hread
      unfold SegReadsVal segRead
      dsimp only
      rw [segRead_arg hlo hrel63, hcast]
      rw [indexRead_write_stable s.indexMMap s.indexSize
        (u32be (s.nextOffset - s.baseOffset) ++ u64be s.storeBuf.length)
        (off2 - s.baseOffset) (by omega)
        (by rw [List.length_append, u32be_length, u64be_length]; omega)
        (by omega)]
      cases hidx : indexRead s.indexMMap s.indexSize
          ((off2 - s.baseOffset : Nat) : Int) with
      | eof =>
        rw [hidx] at hread
        exact absurd hread (by simp)
      | fault =>
        rw [hidx] at hread
        exact absurd hread (by simp)
      | ok a pos2 =>
        rw [hidx] at hread
        dsimp only at hread
        dsimp only
        cases hst : storeRead s.storeBuf pos2 with
        | none =>
          rw [hst] at hread
          exact absurd hread (by simp)
        | some bytes =>
          rw [hst] at hread
          dsimp only at hread
          rw [List.append_assoc, storeRead_mono hst]
          dsimp only
          refine ⟨o2, ?_⟩
          unfold updVals
          rw [if_neg hnew]
          exact hread

/-! ### Log-level round-trip preservation -/

theorem SegOK_congr {c : Config} {vals vals2 : Nat → List Nat} {s : Segment}
    (hok : SegOK c vals s)
    (hv : ∀ o, s.baseOffset ≤ o → o < s.nextOffset → vals2 o = vals o) :
    SegOK c vals2 s := by
  obtain ⟨h1, h2, h3, h4, h5⟩ := hok
  refine ⟨h1, h2, h3, h4, ?_⟩
  intro o hlo hhi
  unfold SegReadsVal
  rw [hv o hlo hhi]
  exact h5 o hlo hhi

theorem SegOK_fresh (vals : Nat → List Nat) (b : Nat) :
    SegOK ⟨1024, 36, 0⟩ vals (newSegmentFresh ⟨1024, 36, 0⟩ b) := by
  unfold SegOK newSegmentFresh
  refine ⟨le_refl b, by simp, by simp, by dsimp only; omega, ?_⟩
  intro off h1 h2
  dsimp only at h1 h2
  omega

theorem isMaxed_fresh (b : Nat) :
    isMaxed ⟨1024, 36, 0⟩ (newSegmentFresh ⟨1024, 36, 0⟩ b) = false := rfl

theorem headBase_preserved {ss : List Segment} {act act2 : Segment}
    (hl : ss.getLast? = some act) (hb : act2.baseOffset = act.baseOffset)
    (hh : ∀ y, ss.head? = some y → y.baseOffset = 0) :
    ∀ y, (ss.dropLast ++ [act2]).head? = some y → y.baseOffset = 0 := by
  cases ss with
  | nil =>
    intro y hy
    exact absurd hl (by simp)
  | cons x xs =>
    cases xs with
    | nil =>
      intro y hy
      have h1 : act2 = y := Option.some.inj hy
      have h2 : x = act := Option.some.inj hl
      rw [← h1, hb, ← h2]
      exact hh x rfl
    | cons w ws =>
      intro y hy
      have h1 : x = y := Option.some.inj hy
      rw [← h1]
      exact hh x rfl

theorem headBase_append {A B : List Segment} (hne : A ≠ [])
    (hh : ∀ y, A.head? = some y → y.baseOffset = 0) :
    ∀ y, (A ++ B).head? = some y → y.baseOffset = 0 := by
  intro y hy
  rw [List.head?_append] at hy
  cases hh1 : A.head? with
  | none =>
    rw [List.head?_eq_none_iff] at hh1
    exact absurd hh1 hne
  | some z =>
    rw [hh1] at hy
    have h1 : z = y := Option.some.inj hy
    rw [← h1]
    exact hh z hh1

/-- A successful `Log.Append` on an invariant-satisfying log returns
`lastNext`, leaves the new active segment at `off + 1`, and preserves the
invariant for the updated payload map. -/
theorem logAppend_LogOK {vals : Nat → List Nat} {l l2 : GoLog} {r : Rec}
    {off : Nat} (hok : LogOK vals l) (hlen : r.value.length < 2 ^ 63)
    (h : logAppend l r = (some off, l2)) :
    off = lastNext l ∧ lastNext l2 = off + 1 ∧
    LogOK (updVals vals off r.value) l2 := by
  obtain ⟨hcfg, hne, hchain, hhead, hsegs, hnm⟩ := hok
  unfold logAppend at h
  cases hl : l.segments.getLast? with
  | none =>
    rw [hl] at h
    simp at h
  | some act =>
    rw [hl] at h
    dsimp only at h
    have hactmem : act ∈ l.segments := List.mem_of_mem_getLast? hl
    have hactok : SegOK ⟨1024, 36, 0⟩ vals act := by
      have := hsegs act hactmem
      rw [hcfg] at this
      exact this
    have hactnm : isMaxed ⟨1024, 36, 0⟩ act = false := by
      have := hnm act hl
      rw [hcfg] at this
      exact this
    cases ha : segAppend act r with
    | mk res act2 =>
      rw [ha] at h
      cases res with
      | none => simp at h
      | some o =>
        dsimp only at h
        obtain ⟨ho, hb2, hn2, hok2⟩ := segAppend_SegOK hactok hactnm hlen ha
        subst ho
        have hlast : lastNext l = act.nextOffset := by
          unfold lastNext
          rw [hl]
          rfl
        have hwfall : ∀ s ∈ l.segments, s.baseOffset ≤ s.nextOffset :=
          fun s hs => (hsegs s hs).1
        have hchain2 : Chained (l.segments.dropLast ++ [act2]) :=
          chained_replace_last hchain hl hb2
        have hhead2 : ∀ y, (l.segments.dropLast ++ [act2]).head? = some y →
            y.baseOffset = 0 := headBase_preserved hl hb2 hhead
        have hupd : ∀ s ∈ l.segments.dropLast,
            SegOK ⟨1024, 36, 0⟩ (updVals vals act.nextOffset r.value) s := by
          intro s hs
          have hsmem : s ∈ l.segments :=
            List.Sublist.mem hs (List.dropLast_sublist _)
          have hsok : SegOK ⟨1024, 36, 0⟩ vals s := by
            have := hsegs s hsmem
            rw [hcfg] at this
            exact this
          refine SegOK_congr hsok ?_
          intro o2 hlo2 hhi2
          have hle := next_le_lastNext hchain hwfall hl s hsmem
          have hneq : o2 ≠ act.nextOffset := by omega
          unfold updVals
          rw [if_neg hneq]
        by_cases hm : isMaxed l.config act2 = true
        · rw [if_pos hm] at h
          simp only [Prod.mk.injEq, Option.some.injEq] at h
          obtain ⟨hoo, hl2⟩ := h
          subst hoo
          rw [← hl2]
          refine ⟨hlast.symm, ?_, ?_⟩
          · unfold lastNext
            rw [List.getLast?_concat]
            rfl
          · refine ⟨hcfg, by simp, ?_, ?_, ?_, ?_⟩
            · refine chained_append_last hchain2 ?_
              intro y hy
              rw [List.getLast?_concat] at hy
              have hy2 : act2 = y := Option.some.inj hy
              rw [← hy2]
              unfold newSegmentFresh
              dsimp only
              omega
            · refine headBase_append ?_ hhead2
              intro hc
              exact absurd (congrArg List.length hc) (by simp)
            · intro s hs
              dsimp only
              rw [hcfg]
              rcases List.mem_append.mp hs with hs' | hs'
              · rcases List.mem_append.mp hs' with hs'' | hs''
                · exact hupd s hs''
                · rw [List.mem_singleton] at hs''
                  subst hs''
                  exact hok2
              · rw [List.mem_singleton] at hs'
                subst hs'
                rw [hcfg]
                exact SegOK_fresh _ _
            · intro s hs
              dsimp only at hs
              rw [List.getLast?_concat] at hs
              have hs2 : newSegmentFresh l.config (act.nextOffset + 1) = s :=
                Option.some.inj hs
              rw [← hs2]
              dsimp only
              rw [hcfg]
              exact isMaxed_fresh _
        · rw [if_neg hm] at h
          simp only [Prod.mk.injEq, Option.some.injEq] at h
          obtain ⟨hoo, hl2⟩ := h
          subst hoo
          rw [← hl2]
          refine ⟨hlast.symm, ?_, ?_⟩
          · unfold lastNext
            rw [List.getLast?_concat]
            simp only [Option.map_some', Option.getD_some]
            omega
          · refine ⟨hcfg, by simp, hchain2, hhead2, ?_, ?_⟩
            · intro s hs
              dsimp only
              rw [hcfg]
              rcases List.mem_append.mp hs with hs' | hs'
              · exact hupd s hs'
              · rw [List.mem_singleton] at hs'
                subst hs'
                exact hok2
            · intro s hs
              dsimp only at hs
              rw [List.getLast?_concat] at hs
              have hs2 : act2 = s := Option.some.inj hs
              rw [← hs2]
              dsimp only
              simpa using hm

theorem valsAfter_nil (vals : Nat → List Nat) (b : Nat) :
    valsAfter vals b [] = vals := by
  funext o
  simp only [valsAfter, List.length_nil, Nat.add_zero]
  have hc : ¬(b ≤ o ∧ o < b) := by omega
  rw [if_neg hc]

theorem valsAfter_cons (vals : Nat → List Nat) (b : Nat) (r : Rec)
    (rs : List Rec) :
    valsAfter vals b (r :: rs) =
      valsAfter (updVals vals b r.value) (b + 1) rs := by
  funext o
  unfold valsAfter updVals
  simp only [List.length_cons]
  by_cases h1 : b + 1 ≤ o ∧ o < b + 1 + rs.length
  · have hL : b ≤ o ∧ o < b + (rs.length + 1) := by omega
    rw [if_pos hL, if_pos h1]
    have he : o - b = (o - (b + 1)) + 1 := by omega
    rw [he, List.getD_cons_succ]
  · by_cases h2 : o = b
    · have hL : b ≤ o ∧ o < b + (rs.length + 1) := by omega
      rw [if_pos hL, if_neg h1, if_pos h2]
      have he : o - b = 0 := by omega
      rw [he, List.getD_cons_zero]
    · have hL : ¬(b ≤ o ∧ o < b + (rs.length + 1)) := by omega
      rw [if_neg hL, if_neg h1, if_neg h2]

/-- Invariant and returned offsets across a run of successful appends. -/
theorem appendAll_LogOK {vals : Nat → List Nat} {l lf : GoLog} {rs : List Rec}
    {offs : List Nat}
    (hok : LogOK vals l) (hlen : ∀ r ∈ rs, r.value.length < 2 ^ 63)
    (h : appendAll l rs = some (lf, offs)) :
    LogOK (valsAfter vals (lastNext l) rs) lf ∧
    offs = List.range' (lastNext l) rs.length ∧
    lastNext lf = lastNext l + rs.length := by
  induction rs generalizing vals l offs with
  | nil =>
    unfold appendAll at h
    simp only [Option.some.injEq, Prod.mk.injEq] at h
    obtain ⟨h1, h2⟩ := h
    subst h1
    subst h2
    rw [valsAfter_nil]
    exact ⟨hok, rfl, by simp⟩
  | cons r rs ih =>
    unfold appendAll at h
    cases ha : logAppend l r with
    | mk res l1 =>
      rw [ha] at h
      cases res with
      | none => simp at h
      | some off =>
        dsimp only at h
        cases hrest : appendAll l1 rs with
        | none =>
          rw [hrest] at h
          simp at h
        | some pr =>
          obtain ⟨lf2, offs2⟩ := pr
          rw [hrest] at h
          simp only [Option.some.injEq, Prod.mk.injEq] at h
          obtain ⟨hlf, hoffs⟩ := h
          subst hlf
          obtain ⟨hoff, hln1, hok1⟩ := logAppend_LogOK hok (hlen r (by simp)) ha
          subst hoff
          have ihres := ih hok1 (fun r2 hr2 => hlen r2 (by simp [hr2])) hrest
          rw [hln1] at ihres
          obtain ⟨ihok, ihoffs, ihlast⟩ := ihres
          refine ⟨?_, ?_, ?_⟩
          · rw [valsAfter_cons]
            exact ihok
          · rw [← hoffs, ihoffs]
            rfl
          · rw [ihlast]
            simp only [List.length_cons]
            omega

/-- On a chained list covering `[head.base, last.next)`, the linear scan
finds a containing segment for every offset in that span. -/
theorem findSeg_covers {ss : List Segment} (hc : Chained ss) (off : Nat)
    (hlow : ∀ y, ss.head? = some y → y.baseOffset ≤ off)
    (hhigh : ∀ y, ss.getLast? = some y → off < y.nextOffset) (hne : ss ≠ []) :
    ∃ s, findSeg ss off = some s ∧ s.baseOffset ≤ off ∧ off < s.nextOffset := by
  induction ss with
  | nil => exact absurd rfl hne
  | cons a rest ih =>
    by_cases hin : off < a.nextOffset
    · refine ⟨a, ?_, hlow a rfl, hin⟩
      unfold findSeg
      rw [if_pos ⟨hlow a rfl, hin⟩]
    · cases rest with
      | nil => exact absurd (hhigh a rfl) hin
      | cons b t =>
        have hstep := (chained_cons_iff.mp hc).2 b rfl
        have hskip : findSeg (a :: b :: t) off = findSeg (b :: t) off := by
          unfold findSeg
          rw [if_neg (fun hx => hin hx.2)]
          rfl
        rw [hskip]
        refine ih (chained_cons hc) ?_ ?_ (by simp)
        · intro y hy
          have hyb : b = y := Option.some.inj hy
          rw [← hyb]
          omega
        · intro y hy
          apply hhigh
          rw [List.getLast?_cons_cons]
          exact hy

/-! ### C1 -/

/-- C1: appending any sequence of records to a fresh log with the default
configuration and then calling `Log.Read` on each offset returned by
`Log.Append` yields a record with the same payload bytes, including across
segment rotation.  (Payload lengths are below `2^63`, the Go slice-length
bound.) -/
theorem log_append_read_roundtrip (rs : List Rec) (lf : GoLog)
    (offs : List Nat) (hlen : ∀ r ∈ rs, r.value.length < 2 ^ 63)
    (happ : appendAll (newLogEmptyDir ⟨0, 0, 0⟩) rs = some (lf, offs)) :
    ∀ i, i < rs.length →
      LogReadsVal lf (offs.getD i 0) (rs.getD i ⟨[], 0⟩).value := by
  have hok0 : LogOK (fun _ => []) (newLogEmptyDir ⟨0, 0, 0⟩) := by
    show LogOK (fun _ => []) ⟨⟨1024, 36, 0⟩, [newSegmentFresh ⟨1024, 36, 0⟩ 0]⟩
    refine ⟨rfl, by simp, trivial, ?_, ?_, ?_⟩
    · intro y hy
      have h1 : newSegmentFresh ⟨1024, 36, 0⟩ 0 = y := Option.some.inj hy
      rw [← h1]
      rfl
    · intro s hs
      rw [List.mem_singleton] at hs
      subst hs
      exact SegOK_fresh _ _
    · intro s hs
      have h1 : newSegmentFresh ⟨1024, 36, 0⟩ 0 = s := Option.some.inj hs
      rw [← h1]
      exact isMaxed_fresh _
  obtain ⟨hokf, hoffs, hlf⟩ := appendAll_LogOK hok0 hlen happ
  have h0 : lastNext (newLogEmptyDir ⟨0, 0, 0⟩) = 0 := rfl
  rw [h0] at hokf hoffs hlf
  intro i hi
  have hoff : offs.getD i 0 = i := by
    rw [hoffs, List.getD_eq_getElem?_getD,
      List.getElem?_eq_getElem (by simpa using hi)]
    simp [List.getElem_range']
  rw [hoff]
  obtain ⟨hcfg, hne, hchain, hhead, hsegok, hnm⟩ := hokf
  obtain ⟨s, hfind, hbs, his⟩ := findSeg_covers hchain i
    (fun y hy => by rw [hhead y hy]; omega)
    (fun y hy => by
      unfold lastNext at hlf
      rw [hy] at hlf
      simp only [Option.map_some', Option.getD_some] at hlf
      omega)
    hne
  have hsok := hsegok s (findSeg_mem hfind).1
  rw [hcfg] at hsok
  have hread := hsok.2.2.2.2 i hbs his
  have hv : valsAfter (fun _ => []) 0 rs i = (rs.getD i ⟨[], 0⟩).value := by
    unfold valsAfter
    rw [if_pos ⟨by omega, by omega⟩]
    simp
  rw [hv] at hread
  obtain ⟨o, hsr⟩ := hread
  refine ⟨o, ?_⟩
  unfold logRead
  rw [hfind]
  exact hsr



/-- Witness for C1: the four-record scenario `rt4recs` (which rotates into a
second segment); reading back the fourth assigned offset yields its
payload. -/
theorem log_append_read_roundtrip_witness :
    LogReadsVal rt4log (rt4offs.getD 3 0) [5, 6, 7] :=
  log_append_read_roundtrip rt4recs rt4log rt4offs (by decide) rfl 3 (by decide)

end DistribLog
